import Mathlib

/-!
Verification of the core of `ged2excel.py`: the depth repair pass
(`repair_gedcom_numbering`) and the relationship linker inside
`gedcom_to_excel`.

Lines of the input file are modelled as `List Char` (one entry per line,
without the trailing newline).  Python's `str.strip`, `str.split(' ', 2)`
and `int(...)` are modelled character by character for ASCII input; the
dictionaries used by the linker are modelled as functions into `Option`.
A raised exception is modelled as `Option.none`.
-/

namespace Ged2Excel

/-- Characters stripped by Python's default `str.strip()` (ASCII whitespace). -/
def isPySpace (c : Char) : Bool :=
  c == ' ' || c == '\t' || c == '\n' || c == '\r' || c == '\x0b' || c == '\x0c'

/-- Python `line.strip()`: drop leading and trailing whitespace. -/
def pyStrip (s : List Char) : List Char :=
  ((s.dropWhile isPySpace).reverse.dropWhile isPySpace).reverse

/-- Split a character list at the first `' '`: the part before it, and
(if a space was found) the part after it.  Building block of `split(' ', 2)`. -/
def breakSpace : List Char → List Char × Option (List Char)
  | [] => ([], none)
  | c :: cs =>
    if c = ' ' then ([], some cs)
    else
      let r := breakSpace cs
      (c :: r.1, r.2)

/-- Python `s.split(' ', 2)`: one, two or three parts.  The result is the
first part together with the optional second part and optional remainder,
mirroring lists of length 1, 2 and 3. -/
def pySplit2 (s : List Char) : List Char × Option (List Char × Option (List Char)) :=
  match breakSpace s with
  | (p0, none) => (p0, none)
  | (p0, some r1) =>
    match breakSpace r1 with
    | (p1, none) => (p0, some (p1, none))
    | (p1, some r2) => (p0, some (p1, some r2))

/-- Value of an ASCII decimal digit. -/
def digitVal (c : Char) : Option Nat :=
  if '0' ≤ c ∧ c ≤ '9' then some (c.toNat - 48) else none

/-- Digit run of Python `int(...)` after the first digit: digits with single
underscores allowed between digits (as in Python numeric literals).
`prevDigit` records whether the previous character was a digit, so an
underscore is accepted only directly after a digit and the run must end in
a digit. -/
def parseDigitsRun : List Char → Nat → Bool → Option Nat
  | [], acc, prevDigit => if prevDigit then some acc else none
  | c :: rest, acc, prevDigit =>
    match digitVal c with
    | some d => parseDigitsRun rest (acc * 10 + d) true
    | none => if c = '_' && prevDigit then parseDigitsRun rest acc false else none

/-- A nonempty digit run starting with a digit. -/
def parseDigits : List Char → Option Nat
  | [] => none
  | c :: rest =>
    match digitVal c with
    | some d => parseDigitsRun rest d true
    | none => none

/-- Python `int(s)` on a string: surrounding whitespace is stripped, an
optional sign is followed by a digit run.  `none` models `ValueError`. -/
def pyInt (s : List Char) : Option Int :=
  match pyStrip s with
  | [] => none
  | c :: rest =>
    if c = '+' then (parseDigits rest).map (fun n => (n : Int))
    else if c = '-' then (parseDigits rest).map (fun n => -(n : Int))
    else (parseDigits (c :: rest)).map (fun n => (n : Int))

/-- Decimal digits of `n`, most significant first; `fuel` bounds recursion
(structural, so that the kernel can evaluate it). -/
def natDigitsGo : Nat → Nat → List Char → List Char
  | 0, _, acc => acc
  | fuel + 1, n, acc =>
    let c := Char.ofNat (48 + n % 10)
    if n < 10 then c :: acc else natDigitsGo fuel (n / 10) (c :: acc)

/-- Decimal rendering of a natural number, as in Python's `f"{n}"`. -/
def renderNat (n : Nat) : List Char :=
  natDigitsGo (n + 1) n []

/-- Decimal rendering of an integer, as in Python's `f"{level}"`. -/
def renderInt : Int → List Char
  | Int.ofNat n => renderNat n
  | Int.negSucc n => '-' :: renderNat (n + 1)

/-- Line 25 of `ged2excel.py`: the depth used when `int(parts[0])` raises
`ValueError`, namely `previous_level + 1 if previous_level >= 0 else 0`. -/
def fallbackLevel (prev : Int) : Int :=
  if prev ≥ 0 then prev + 1 else 0

/-- Lines 22-25 of `ged2excel.py`: the depth before clamping, either the
parsed `int(parts[0])` or the fallback. -/
def rawLevel (prev : Int) (p0 : List Char) : Int :=
  match pyInt p0 with
  | some n => n
  | none => fallbackLevel prev

/-- Lines 26-29 of `ged2excel.py`: clamp the depth.  A depth more than one
above `previous_level` becomes `previous_level + 1`; otherwise a negative
depth becomes `0`. -/
def computeLevel (prev : Int) (p0 : List Char) : Int :=
  if rawLevel prev p0 > prev + 1 then prev + 1
  else if rawLevel prev p0 < 0 then 0
  else rawLevel prev p0

/-- One corrected line before rendering: the clamped depth, `parts[1]`, and
`parts[2]` when the line had three fields. -/
abbrev RepairEntry := Int × List Char × Option (List Char)

/-- Processing of one non-blank stripped line: split it, and build the
corrected entry from the clamped depth and `parts[1]`/`parts[2]`.  A line
that splits into a single field hits `parts[1]` and raises `IndexError`,
modelled by `none`. -/
def repairStep (prev : Int) (s : List Char) : Option RepairEntry :=
  match pySplit2 s with
  | (_, none) => none
  | (p0, some (p1, rest2)) => some (computeLevel prev p0, p1, rest2)

/-- The loop of `repair_gedcom_numbering` (lines 17-35): strip each line,
skip blank lines, process the rest with `repairStep`, and thread the
emitted depth through as the new `previous_level`. -/
def repairCore : Int → List (List Char) → Option (List RepairEntry)
  | _, [] => some []
  | prev, l :: ls =>
    if (pyStrip l).isEmpty then repairCore prev ls
    else
      match repairStep prev (pyStrip l) with
      | none => none
      | some e => (repairCore e.1 ls).map (fun es => e :: es)

/-- Lines 30-33 of `ged2excel.py`: `f"{level} {parts[1]}"` or
`f"{level} {parts[1]} {parts[2]}"`. -/
def renderLine : RepairEntry → List Char
  | (lvl, p1, none) => renderInt lvl ++ (' ' :: p1)
  | (lvl, p1, some p2) => renderInt lvl ++ (' ' :: (p1 ++ (' ' :: p2)))

/-- `repair_gedcom_numbering`: the corrected line stream, starting from
`previous_level = -1`; `none` models an uncaught exception. -/
def repair_gedcom_numbering (ls : List (List Char)) : Option (List (List Char)) :=
  (repairCore (-1) ls).map (fun es => es.map renderLine)

/-- Character list of a string literal, for concrete test lines. -/
def chars (s : String) : List Char := s.data

/-- A parsed family-union record as consumed by lines 230-233 of
`ged2excel.py`: the `HUSB` value, the `WIFE` value (both `""` when the tag
is absent, as in the source's initialisation) and the ordered `CHIL`
values. -/
structure FamilyRecord where
  husband_id : String
  wife_id : String
  children_ids : List String

/-- The three accumulating dictionaries of the linker (lines 109-111),
modelled as functions into `Option`; an id not used as a key maps to
`none`. -/
structure LinkState where
  child_to_parents : String → Option (String × String)
  id_to_spouses : String → Option (List String)
  id_to_children : String → Option (List String)

/-- All three dictionaries start empty. -/
def emptyLinkState : LinkState :=
  ⟨fun _ => none, fun _ => none, fun _ => none⟩

/-- Python dictionary assignment `m[k] = v`. -/
def dictSet {α : Type} (m : String → Option α) (k : String) (v : α) :
    String → Option α :=
  fun x => if x = k then some v else m x

/-- Python `m.setdefault(k, []).append(v)`. -/
def setdefaultAppend (m : String → Option (List String)) (k v : String) :
    String → Option (List String) :=
  dictSet m k ((m k).getD [] ++ [v])

/-- Python `m.setdefault(k, []).extend(vs)`. -/
def setdefaultExtend (m : String → Option (List String)) (k : String)
    (vs : List String) : String → Option (List String) :=
  dictSet m k ((m k).getD [] ++ vs)

/-- Lines 260-261 of `ged2excel.py`: for each listed child, set
`child_to_parents[child] = (husband_id, wife_id)`, overwriting any earlier
entry. -/
def linkChildren (st : LinkState) (f : FamilyRecord) : LinkState :=
  { st with
    child_to_parents :=
      f.children_ids.foldl
        (fun m c => dictSet m c (f.husband_id, f.wife_id))
        st.child_to_parents }

/-- Lines 262-264 of `ged2excel.py`: when the husband id is truthy
(non-empty), append the wife id to his spouse list and extend his child
list. -/
def linkHusband (st : LinkState) (f : FamilyRecord) : LinkState :=
  if f.husband_id ≠ "" then
    { st with
      id_to_spouses := setdefaultAppend st.id_to_spouses f.husband_id f.wife_id
      id_to_children := setdefaultExtend st.id_to_children f.husband_id f.children_ids }
  else st

/-- Lines 265-267 of `ged2excel.py`: symmetrically for the wife. -/
def linkWife (st : LinkState) (f : FamilyRecord) : LinkState :=
  if f.wife_id ≠ "" then
    { st with
      id_to_spouses := setdefaultAppend st.id_to_spouses f.wife_id f.husband_id
      id_to_children := setdefaultExtend st.id_to_children f.wife_id f.children_ids }
  else st

/-- Lines 260-267 of `ged2excel.py`: the per-family-record updates of the
linking pass, in source order. -/
def linkFamily (st : LinkState) (f : FamilyRecord) : LinkState :=
  linkWife (linkHusband (linkChildren st f) f) f

/-- The linking pass over all family-union records in file order. -/
def linkFamilies (fs : List FamilyRecord) : LinkState :=
  fs.foldl linkFamily emptyLinkState

/-- One character of `sanitize_string`: control characters
`0x00-0x08, 0x0B, 0x0C, 0x0E-0x1F` are removed, `^` becomes a space and
the middle dot becomes a period. -/
def sanitizeChar (c : Char) : Option Char :=
  if c.toNat ≤ 8 ∨ c.toNat = 11 ∨ c.toNat = 12 ∨ (14 ≤ c.toNat ∧ c.toNat ≤ 31) then none
  else if c = '^' then some ' '
  else if c = '·' then some '.'
  else some c

/-- `sanitize_string` from `ged2excel.py`. -/
def sanitize_string (s : String) : String :=
  ⟨s.data.filterMap sanitizeChar⟩

/-- Python `", ".join(l)`. -/
def joinComma (l : List String) : String :=
  String.intercalate ", " l

/-- The relationship columns of one individual row that the enrichment
loop (lines 371-386) fills in; all start as `""` (lines 207-214). -/
structure IndivFields where
  father_id : String
  mother_id : String
  father_name : String
  mother_name : String
  spouse_ids : String
  spouse_names : String
  children_ids : String
  children_names : String

/-- Lines 371-386 of `ged2excel.py`: enrich one individual from the three
dictionaries, resolving every referenced id to a name with
`id_to_name.get(x, "")`; fields whose dictionary has no entry for the
individual keep their initial `""`. -/
def enrichIndividual (id_to_name : String → Option String) (st : LinkState)
    (indiv_id : String) : IndivFields :=
  let f0 : IndivFields := ⟨"", "", "", "", "", "", "", ""⟩
  let f1 :=
    match st.child_to_parents indiv_id with
    | some (fa, mo) =>
      { f0 with
        father_id := sanitize_string fa
        mother_id := sanitize_string mo
        father_name := sanitize_string ((id_to_name fa).getD "")
        mother_name := sanitize_string ((id_to_name mo).getD "") }
    | none => f0
  let f2 :=
    match st.id_to_spouses indiv_id with
    | some sids =>
      { f1 with
        spouse_ids := sanitize_string (joinComma sids)
        spouse_names := sanitize_string (joinComma (sids.map fun sid => (id_to_name sid).getD "")) }
    | none => f1
  match st.id_to_children indiv_id with
  | some cids =>
    { f2 with
      children_ids := sanitize_string (joinComma cids)
      children_names := sanitize_string (joinComma (cids.map fun cid => (id_to_name cid).getD "")) }
  | none => f2

/-- The last character of a line, `none` for the empty line. -/
def lastChar : List Char → Option Char
  | [] => none
  | [c] => some c
  | _ :: c :: cs => lastChar (c :: cs)

/-- Structural invariant of the entries produced by `repairCore` starting
from state `prev`: each depth lies in `[0, prev + 1]` (chained through the
list), `parts[1]` contains no space, and the final field is nonempty and
does not end in whitespace (it came from a stripped line). -/
def goodEntries : Int → List RepairEntry → Prop
  | _, [] => True
  | prev, (lvl, p1, rest2) :: es =>
    0 ≤ lvl ∧ lvl ≤ prev + 1 ∧ ' ' ∉ p1 ∧
      (match rest2 with
       | none => p1 ≠ [] ∧ ∀ c, lastChar p1 = some c → isPySpace c = false
       | some q => q ≠ [] ∧ ∀ c, lastChar q = some c → isPySpace c = false) ∧
      goodEntries lvl es

section ListLemmas

lemma lastChar_cons_cons (a b : Char) (cs : List Char) :
    lastChar (a :: b :: cs) = lastChar (b :: cs) := rfl

lemma lastChar_append_cons (a : List Char) (x : Char) (b : List Char) :
    lastChar (a ++ x :: b) = lastChar (x :: b) := by
  induction a with
  | nil => rfl
  | cons c a ih =>
    cases a with
    | nil => rfl
    | cons d a => exact ih

lemma lastChar_reverse (l : List Char) : lastChar l.reverse = l.head? := by
  cases l with
  | nil => rfl
  | cons c t =>
    have : t.reverse ++ [c] = t.reverse ++ c :: [] := rfl
    simp only [List.reverse_cons, this, lastChar_append_cons, List.head?_cons]
    rfl

lemma head?_reverse_eq_lastChar (l : List Char) : l.reverse.head? = lastChar l := by
  have h := lastChar_reverse l.reverse
  rw [List.reverse_reverse] at h
  exact h.symm

lemma lastChar_isSome (l : List Char) (h : l ≠ []) : ∃ c, lastChar l = some c := by
  induction l with
  | nil => exact absurd rfl h
  | cons a t ih =>
    cases t with
    | nil => exact ⟨a, rfl⟩
    | cons b t => exact ih (by simp)

lemma lastChar_mem (l : List Char) (c : Char) (h : lastChar l = some c) : c ∈ l := by
  induction l with
  | nil => simp [lastChar] at h
  | cons a t ih =>
    cases t with
    | nil =>
      simp only [lastChar] at h
      simp [← Option.some_inj.mp h]
    | cons b t =>
      rw [lastChar_cons_cons] at h
      exact List.mem_cons_of_mem _ (ih h)

lemma head_dropWhile (p : Char → Bool) (l : List Char) (c : Char)
    (h : (l.dropWhile p).head? = some c) : p c = false := by
  induction l with
  | nil => simp [List.dropWhile] at h
  | cons a t ih =>
    by_cases hp : p a
    · rw [List.dropWhile_cons_of_pos hp] at h
      exact ih h
    · rw [List.dropWhile_cons_of_neg hp] at h
      simp only [List.head?_cons, Option.some_inj] at h
      subst h
      exact Bool.eq_false_iff.mpr hp

lemma dropWhile_eq_self (p : Char → Bool) (l : List Char)
    (h : ∀ c, l.head? = some c → p c = false) : l.dropWhile p = l := by
  cases l with
  | nil => rfl
  | cons a t =>
    have := h a rfl
    rw [List.dropWhile_cons_of_neg (by simp [this])]

lemma dropWhile_suffix_exists (p : Char → Bool) (l : List Char) :
    ∃ pre, l = pre ++ l.dropWhile p := by
  induction l with
  | nil => exact ⟨[], rfl⟩
  | cons a t ih =>
    by_cases hp : p a
    · obtain ⟨pre, hpre⟩ := ih
      exact ⟨a :: pre, by rw [List.dropWhile_cons_of_pos hp]; simpa using hpre⟩
    · refine ⟨[], ?_⟩
      rw [List.dropWhile_cons_of_neg hp]
      rfl

end ListLemmas

section StripLemmas

lemma pyStrip_last_not_space (s : List Char) (c : Char)
    (h : lastChar (pyStrip s) = some c) : isPySpace c = false := by
  unfold pyStrip at h
  rw [lastChar_reverse] at h
  exact head_dropWhile _ _ _ h

lemma pyStrip_head_not_space (s : List Char) (c : Char)
    (h : (pyStrip s).head? = some c) : isPySpace c = false := by
  unfold pyStrip at h
  rw [head?_reverse_eq_lastChar] at h
  obtain ⟨pre, hpre⟩ := dropWhile_suffix_exists isPySpace (s.dropWhile isPySpace).reverse
  have hwne : (s.dropWhile isPySpace).reverse.dropWhile isPySpace ≠ [] := by
    intro hnil
    rw [hnil] at h
    simp [lastChar] at h
  obtain ⟨c0, t, hct⟩ := List.exists_cons_of_ne_nil hwne
  have hylast : lastChar (s.dropWhile isPySpace).reverse = some c := by
    rw [hpre, hct, lastChar_append_cons, ← hct]
    exact h
  have hhead : ((s.dropWhile isPySpace).head? : Option Char) = some c := by
    rw [← head?_reverse_eq_lastChar] at hylast
    rwa [List.reverse_reverse] at hylast
  exact head_dropWhile _ _ _ hhead

lemma pyStrip_noop (s : List Char)
    (hh : ∀ c, s.head? = some c → isPySpace c = false)
    (hl : ∀ c, lastChar s = some c → isPySpace c = false) : pyStrip s = s := by
  unfold pyStrip
  rw [dropWhile_eq_self _ _ hh]
  rw [dropWhile_eq_self _ _ (fun c hc => hl c (by rwa [head?_reverse_eq_lastChar] at hc))]
  exact List.reverse_reverse s

end StripLemmas

section SplitLemmas

lemma breakSpace_no_space (a : List Char) (ha : ' ' ∉ a) :
    breakSpace a = (a, none) := by
  induction a with
  | nil => rfl
  | cons c cs ih =>
    have hc : ¬ c = ' ' := fun h => ha (h ▸ List.mem_cons_self c cs)
    have ihs : breakSpace cs = (cs, none) := ih (fun h => ha (List.mem_cons_of_mem _ h))
    simp [breakSpace, hc, ihs]

lemma breakSpace_append_space (a b : List Char) (ha : ' ' ∉ a) :
    breakSpace (a ++ ' ' :: b) = (a, some b) := by
  induction a with
  | nil => simp [breakSpace]
  | cons c cs ih =>
    have hc : ¬ c = ' ' := fun h => ha (h ▸ List.mem_cons_self c cs)
    have ihs := ih (fun h => ha (List.mem_cons_of_mem _ h))
    simp [breakSpace, hc, ihs]

lemma breakSpace_fst_no_space (s : List Char) : ' ' ∉ (breakSpace s).1 := by
  induction s with
  | nil => simp [breakSpace]
  | cons c cs ih =>
    by_cases hc : c = ' '
    · simp [breakSpace, hc]
    · simp only [breakSpace, if_neg hc]
      intro h
      rcases List.mem_cons.mp h with h | h
      · exact hc h.symm
      · exact ih h

lemma breakSpace_none_eq (s : List Char) (h : (breakSpace s).2 = none) :
    (breakSpace s).1 = s := by
  induction s with
  | nil => rfl
  | cons c cs ih =>
    by_cases hc : c = ' '
    · simp [breakSpace, hc] at h
    · simp only [breakSpace, if_neg hc] at h ⊢
      rw [ih h]

lemma breakSpace_some_eq (s t : List Char) (h : (breakSpace s).2 = some t) :
    s = (breakSpace s).1 ++ ' ' :: t := by
  induction s with
  | nil => simp [breakSpace] at h
  | cons c cs ih =>
    by_cases hc : c = ' '
    · simp only [breakSpace, if_pos hc] at h ⊢
      simp only [Option.some_inj] at h
      rw [hc, h]
      rfl
    · simp only [breakSpace, if_neg hc] at h ⊢
      rw [List.cons_append, ← ih h]

lemma mem_space_breakSpace_some (s : List Char) (h : ' ' ∈ s) :
    ∃ t, (breakSpace s).2 = some t := by
  induction s with
  | nil => simp at h
  | cons c cs ih =>
    by_cases hc : c = ' '
    · exact ⟨cs, by simp [breakSpace, hc]⟩
    · have : ' ' ∈ cs := by
        rcases List.mem_cons.mp h with h | h
        · exact absurd h.symm hc
        · exact h
      obtain ⟨t, ht⟩ := ih this
      exact ⟨t, by simp [breakSpace, if_neg hc, ht]⟩

end SplitLemmas

/-- Number of decimal digits of a natural number. -/
def numDigits (n : Nat) : Nat :=
  if h : n < 10 then 1 else numDigits (n / 10) + 1
termination_by n
decreasing_by
  exact Nat.div_lt_self (by omega) (by omega)

section DigitLemmas

lemma digitVal_bounds (c : Char) (d : Nat) (h : digitVal c = some d) :
    '0' ≤ c ∧ c ≤ '9' := by
  unfold digitVal at h
  split at h
  · assumption
  · cases h

lemma digit_not_space (c : Char) (d : Nat) (h : digitVal c = some d) :
    isPySpace c = false := by
  obtain ⟨h1, h2⟩ := digitVal_bounds c d h
  simp only [isPySpace, Bool.or_eq_false_iff, beq_eq_false_iff_ne]
  refine ⟨⟨⟨⟨⟨?_, ?_⟩, ?_⟩, ?_⟩, ?_⟩, ?_⟩ <;>
    · rintro rfl
      revert h1 h2
      decide

lemma digit_ne_space (c : Char) (d : Nat) (h : digitVal c = some d) : c ≠ ' ' := by
  obtain ⟨h1, h2⟩ := digitVal_bounds c d h
  rintro rfl
  revert h1 h2
  decide

lemma digit_ne_plus (c : Char) (d : Nat) (h : digitVal c = some d) : c ≠ '+' := by
  obtain ⟨h1, h2⟩ := digitVal_bounds c d h
  rintro rfl
  revert h1 h2
  decide

lemma digit_ne_minus (c : Char) (d : Nat) (h : digitVal c = some d) : c ≠ '-' := by
  obtain ⟨h1, h2⟩ := digitVal_bounds c d h
  rintro rfl
  revert h1 h2
  decide

lemma digitVal_ofNatMod (n : Nat) :
    digitVal (Char.ofNat (48 + n % 10)) = some (n % 10) := by
  have hk : n % 10 < 10 := Nat.mod_lt _ (by omega)
  generalize n % 10 = k at hk ⊢
  interval_cases k <;> decide

lemma natDigitsGo_append_digits (fuel : Nat) :
    ∀ n acc, ∃ pre, natDigitsGo fuel n acc = pre ++ acc ∧
      ∀ c ∈ pre, ∃ d, digitVal c = some d := by
  induction fuel with
  | zero => exact fun n acc => ⟨[], rfl, by simp⟩
  | succ fuel ih =>
    intro n acc
    by_cases h : n < 10
    · refine ⟨[Char.ofNat (48 + n % 10)], ?_, ?_⟩
      · simp [natDigitsGo, h]
      · intro c hc
        simp only [List.mem_singleton] at hc
        exact ⟨n % 10, hc ▸ digitVal_ofNatMod n⟩
    · obtain ⟨pre, hpre, hdig⟩ := ih (n / 10) (Char.ofNat (48 + n % 10) :: acc)
      refine ⟨pre ++ [Char.ofNat (48 + n % 10)], ?_, ?_⟩
      · simp only [natDigitsGo, if_neg h]
        rw [hpre, List.append_assoc]
        rfl
      · intro c hc
        rcases List.mem_append.mp hc with hc | hc
        · exact hdig c hc
        · simp only [List.mem_singleton] at hc
          exact ⟨n % 10, hc ▸ digitVal_ofNatMod n⟩

lemma renderNat_ne_nil (n : Nat) : renderNat n ≠ [] := by
  unfold renderNat natDigitsGo
  by_cases h : n < 10
  · simp [h]
  · simp only [if_neg h]
    obtain ⟨pre, hpre, _⟩ :=
      natDigitsGo_append_digits n (n / 10) [Char.ofNat (48 + n % 10)]
    rw [hpre]
    simp

lemma renderNat_digits (n : Nat) (c : Char) (h : c ∈ renderNat n) :
    ∃ d, digitVal c = some d := by
  obtain ⟨pre, hpre, hdig⟩ := natDigitsGo_append_digits (n + 1) n []
  unfold renderNat at h
  rw [hpre, List.append_nil] at h
  exact hdig c h

lemma renderNat_no_space (n : Nat) : ' ' ∉ renderNat n := by
  intro h
  obtain ⟨d, hd⟩ := renderNat_digits n ' ' h
  exact digit_ne_space ' ' d hd rfl

lemma parse_natDigitsGo (fuel : Nat) :
    ∀ n acc a b, n < fuel →
      parseDigitsRun (natDigitsGo fuel n acc) a b =
        parseDigitsRun acc (a * 10 ^ numDigits n + n) true := by
  induction fuel with
  | zero => omega
  | succ fuel ih =>
    intro n acc a b hfuel
    have hd := digitVal_ofNatMod n
    by_cases h : n < 10
    · have h1 : natDigitsGo (fuel + 1) n acc = Char.ofNat (48 + n % 10) :: acc := by
        simp [natDigitsGo, h]
      have h2 : parseDigitsRun (Char.ofNat (48 + n % 10) :: acc) a b
          = parseDigitsRun acc (a * 10 + n % 10) true := by
        simp only [parseDigitsRun, hd]
      have h3 : numDigits n = 1 := by rw [numDigits, dif_pos h]
      rw [h1, h2, h3, Nat.mod_eq_of_lt h, pow_one]
    · have hdivlt : n / 10 < fuel := by omega
      have h1 : natDigitsGo (fuel + 1) n acc
          = natDigitsGo fuel (n / 10) (Char.ofNat (48 + n % 10) :: acc) := by
        simp [natDigitsGo, h]
      have h2 : parseDigitsRun (Char.ofNat (48 + n % 10) :: acc)
          (a * 10 ^ numDigits (n / 10) + n / 10) true
          = parseDigitsRun acc ((a * 10 ^ numDigits (n / 10) + n / 10) * 10 + n % 10) true := by
        simp only [parseDigitsRun, hd]
      have h3 : numDigits n = numDigits (n / 10) + 1 := by rw [numDigits, dif_neg h]
      rw [h1, ih (n / 10) _ a b hdivlt, h2, h3]
      have hdm : n / 10 * 10 + n % 10 = n := by omega
      have harith : (a * 10 ^ numDigits (n / 10) + n / 10) * 10 + n % 10
          = a * 10 ^ (numDigits (n / 10) + 1) + n := by
        calc (a * 10 ^ numDigits (n / 10) + n / 10) * 10 + n % 10
            = a * (10 ^ numDigits (n / 10) * 10) + (n / 10 * 10 + n % 10) := by ring
          _ = a * 10 ^ (numDigits (n / 10) + 1) + n := by rw [hdm, pow_succ]
      rw [harith]

lemma parseDigits_renderNat (n : Nat) : parseDigits (renderNat n) = some n := by
  obtain ⟨c0, t, hct⟩ := List.exists_cons_of_ne_nil (renderNat_ne_nil n)
  obtain ⟨d, hd⟩ := renderNat_digits n c0 (by rw [hct]; exact List.mem_cons_self _ _)
  have hkey : parseDigitsRun (renderNat n) 0 true = some n := by
    have h := parse_natDigitsGo (n + 1) n [] 0 true (by omega)
    unfold renderNat
    rw [h]
    simp [parseDigitsRun]
  rw [hct] at hkey ⊢
  simp only [parseDigits, hd]
  simp only [parseDigitsRun, hd] at hkey
  rw [Nat.zero_mul, Nat.zero_add] at hkey
  exact hkey

lemma pyStrip_renderNat (n : Nat) : pyStrip (renderNat n) = renderNat n := by
  apply pyStrip_noop
  · intro c hc
    have hmem : c ∈ renderNat n := by
      cases hrn : renderNat n with
      | nil => rw [hrn] at hc; cases hc
      | cons a t =>
        rw [hrn] at hc
        simp only [List.head?_cons, Option.some_inj] at hc
        subst hc
        exact List.mem_cons_self _ _
    obtain ⟨d, hd⟩ := renderNat_digits n c hmem
    exact digit_not_space c d hd
  · intro c hc
    obtain ⟨d, hd⟩ := renderNat_digits n c (lastChar_mem _ _ hc)
    exact digit_not_space c d hd

lemma pyInt_renderNat (n : Nat) : pyInt (renderNat n) = some (n : Int) := by
  obtain ⟨c0, t, hct⟩ := List.exists_cons_of_ne_nil (renderNat_ne_nil n)
  obtain ⟨d, hd⟩ := renderNat_digits n c0 (by rw [hct]; exact List.mem_cons_self _ _)
  have h1 := pyStrip_renderNat n
  unfold pyInt
  rw [h1, hct]
  simp only [if_neg (digit_ne_plus c0 d hd), if_neg (digit_ne_minus c0 d hd)]
  rw [← hct, parseDigits_renderNat n]
  rfl

end DigitLemmas

section RepairLemmas

lemma pySplit2_some_spec (s p0 p1 : List Char) (rest2 : Option (List Char))
    (h : pySplit2 s = (p0, some (p1, rest2))) :
    ' ' ∉ p0 ∧ ' ' ∉ p1 ∧
      s = p0 ++ ' ' :: (p1 ++ rest2.elim ([] : List Char) (fun q => ' ' :: q)) := by
  unfold pySplit2 at h
  split at h
  · simp at h
  · rename_i q0 r1 heq1
    have hs1 : s = q0 ++ ' ' :: r1 := by
      have h2 := breakSpace_some_eq s r1 (by rw [heq1])
      rwa [heq1] at h2
    have hq0 : ' ' ∉ q0 := by
      have h2 := breakSpace_fst_no_space s
      rwa [heq1] at h2
    split at h
    · rename_i q1 heq2
      have hr1 : r1 = q1 := by
        have h3 := breakSpace_none_eq r1 (by rw [heq2])
        rw [heq2] at h3
        exact h3.symm
      have hq1 : ' ' ∉ q1 := by
        have h3 := breakSpace_fst_no_space r1
        rwa [heq2] at h3
      simp only [Prod.mk.injEq, Option.some_inj] at h
      obtain ⟨hA, hBC⟩ := h
      obtain ⟨hB, hC⟩ := hBC
      subst hA
      subst hB
      subst hC
      refine ⟨hq0, hq1, ?_⟩
      rw [hs1, hr1]
      simp
    · rename_i q1 r2 heq2
      have hr1 : r1 = q1 ++ ' ' :: r2 := by
        have h3 := breakSpace_some_eq r1 r2 (by rw [heq2])
        rwa [heq2] at h3
      have hq1 : ' ' ∉ q1 := by
        have h3 := breakSpace_fst_no_space r1
        rwa [heq2] at h3
      simp only [Prod.mk.injEq, Option.some_inj] at h
      obtain ⟨hA, hBC⟩ := h
      obtain ⟨hB, hC⟩ := hBC
      subst hA
      subst hB
      subst hC
      refine ⟨hq0, hq1, ?_⟩
      rw [hs1, hr1]
      simp

lemma repairStep_some (prev : Int) (s : List Char) (e : RepairEntry)
    (h : repairStep prev s = some e) :
    ∃ p0, pySplit2 s = (p0, some (e.2.1, e.2.2)) ∧ e.1 = computeLevel prev p0 := by
  unfold repairStep at h
  cases h1 : pySplit2 s with
  | mk q0 o =>
    rw [h1] at h
    cases o with
    | none => simp at h
    | some pr =>
      obtain ⟨p1, rest2⟩ := pr
      simp only [Option.some_inj] at h
      exact ⟨q0, by rw [← h], by rw [← h]⟩

lemma computeLevel_bounds (prev : Int) (p0 : List Char) (h : -1 ≤ prev) :
    0 ≤ computeLevel prev p0 ∧ computeLevel prev p0 ≤ prev + 1 := by
  unfold computeLevel
  split_ifs <;> omega

lemma lastChar_pySplit2_two (s p1 : List Char) (p0 : List Char)
    (hval : ∀ c, lastChar s = some c → isPySpace c = false)
    (hs : s = p0 ++ ' ' :: p1) :
    p1 ≠ [] ∧ ∀ c, lastChar p1 = some c → isPySpace c = false := by
  have hne : p1 ≠ [] := by
    rintro rfl
    have : lastChar s = some ' ' := by rw [hs, lastChar_append_cons]; rfl
    have := hval ' ' this
    simp [isPySpace] at this
  refine ⟨hne, fun c hc => ?_⟩
  apply hval
  rw [hs, lastChar_append_cons]
  obtain ⟨c1, t1, ht⟩ := List.exists_cons_of_ne_nil hne
  rw [ht, lastChar_cons_cons, ← ht]
  exact hc

/-- Every successful run of `repairCore` from a state `prev ≥ -1` produces
entries satisfying the structural invariant. -/
lemma repairCore_good (ls : List (List Char)) :
    ∀ (prev : Int) (es : List RepairEntry), -1 ≤ prev →
      repairCore prev ls = some es → goodEntries prev es := by
  induction ls with
  | nil =>
    intro prev es _ h
    simp only [repairCore, Option.some_inj] at h
    rw [← h]
    trivial
  | cons l ls ih =>
    intro prev es hprev h
    by_cases hblank : (pyStrip l).isEmpty
    · rw [repairCore, if_pos hblank] at h
      exact ih prev es hprev h
    · rw [repairCore, if_neg hblank] at h
      cases hstep : repairStep prev (pyStrip l) with
      | none => rw [hstep] at h; simp at h
      | some e =>
        rw [hstep] at h
        simp only [Option.map_eq_some'] at h
        obtain ⟨es', hes', rfl⟩ := h
        obtain ⟨lvl, p1, rest2⟩ := e
        obtain ⟨p0, hsplit, hlvl⟩ := repairStep_some prev (pyStrip l) _ hstep
        simp only at hsplit hlvl
        obtain ⟨hp0, hp1, hseq⟩ := pySplit2_some_spec _ _ _ _ hsplit
        subst hlvl
        obtain ⟨hge, hle⟩ := computeLevel_bounds prev p0 hprev
        have hlast := pyStrip_last_not_space l
        refine ⟨hge, hle, hp1, ?_, ?_⟩
        · cases rest2 with
          | none =>
            simp only [Option.elim, List.append_nil] at hseq
            exact lastChar_pySplit2_two (pyStrip l) p1 p0 hlast hseq
          | some q =>
            simp only [Option.elim] at hseq
            have hseq2 : pyStrip l = (p0 ++ ' ' :: p1) ++ ' ' :: q := by
              rw [hseq]; simp
            exact lastChar_pySplit2_two (pyStrip l) q (p0 ++ ' ' :: p1) hlast hseq2
        · exact ih _ es' (by omega) hes'

end RepairLemmas

section StabilityLemmas

lemma renderInt_nonneg (lvl : Int) (h : 0 ≤ lvl) : renderInt lvl = renderNat lvl.toNat := by
  cases lvl with
  | ofNat n => rfl
  | negSucc n => exact ((Int.negSucc_not_nonneg n).mp h).elim

lemma renderNat_head_digit (n : Nat) :
    ∃ c0 t d, renderNat n = c0 :: t ∧ digitVal c0 = some d := by
  obtain ⟨c0, t, hct⟩ := List.exists_cons_of_ne_nil (renderNat_ne_nil n)
  obtain ⟨d, hd⟩ := renderNat_digits n c0 (by rw [hct]; exact List.mem_cons_self _ _)
  exact ⟨c0, t, d, hct, hd⟩

lemma renderLine_eq (lvl : Int) (p1 : List Char) (rest2 : Option (List Char)) (h : 0 ≤ lvl) :
    renderLine (lvl, p1, rest2) =
      renderNat lvl.toNat ++ ' ' :: (p1 ++ rest2.elim ([] : List Char) (fun q => ' ' :: q)) := by
  cases rest2 with
  | none => simp [renderLine, renderInt_nonneg lvl h]
  | some q => simp [renderLine, renderInt_nonneg lvl h]

lemma renderLine_ne_nil (lvl : Int) (p1 : List Char) (rest2 : Option (List Char)) (h : 0 ≤ lvl) :
    renderLine (lvl, p1, rest2) ≠ [] := by
  rw [renderLine_eq lvl p1 rest2 h]
  obtain ⟨c0, t, d, hct, _⟩ := renderNat_head_digit lvl.toNat
  rw [hct]
  simp

lemma renderLine_strip (lvl : Int) (p1 : List Char) (rest2 : Option (List Char))
    (h0 : 0 ≤ lvl)
    (hrest : match rest2 with
       | none => p1 ≠ [] ∧ ∀ c, lastChar p1 = some c → isPySpace c = false
       | some q => q ≠ [] ∧ ∀ c, lastChar q = some c → isPySpace c = false) :
    pyStrip (renderLine (lvl, p1, rest2)) = renderLine (lvl, p1, rest2) := by
  apply pyStrip_noop
  · obtain ⟨c0, t, d, hct, hd⟩ := renderNat_head_digit lvl.toNat
    rw [renderLine_eq lvl p1 rest2 h0, hct]
    intro c hc
    simp only [List.cons_append, List.head?_cons, Option.some_inj] at hc
    subst hc
    exact digit_not_space _ d hd
  · intro c hc
    rw [renderLine_eq lvl p1 rest2 h0] at hc
    cases rest2 with
    | none =>
      obtain ⟨hne, hval⟩ := hrest
      simp only [Option.elim, List.append_nil] at hc
      rw [lastChar_append_cons] at hc
      obtain ⟨c1, t1, ht⟩ := List.exists_cons_of_ne_nil hne
      rw [ht, lastChar_cons_cons, ← ht] at hc
      exact hval c hc
    | some q =>
      obtain ⟨hne, hval⟩ := hrest
      simp only [Option.elim] at hc
      have hview : (' ' :: (p1 ++ ' ' :: q)) = (' ' :: p1) ++ ' ' :: q := by simp
      rw [lastChar_append_cons, hview, lastChar_append_cons] at hc
      obtain ⟨c1, t1, ht⟩ := List.exists_cons_of_ne_nil hne
      rw [ht, lastChar_cons_cons, ← ht] at hc
      exact hval c hc

lemma pySplit2_two (a b : List Char) (ha : ' ' ∉ a) (hb : ' ' ∉ b) :
    pySplit2 (a ++ ' ' :: b) = (a, some (b, none)) := by
  simp [pySplit2, breakSpace_append_space _ _ ha, breakSpace_no_space _ hb]

lemma pySplit2_three (a b c : List Char) (ha : ' ' ∉ a) (hb : ' ' ∉ b) :
    pySplit2 (a ++ ' ' :: (b ++ ' ' :: c)) = (a, some (b, some c)) := by
  simp [pySplit2, breakSpace_append_space _ _ ha, breakSpace_append_space _ _ hb]

lemma pySplit2_renderLine (lvl : Int) (p1 : List Char) (rest2 : Option (List Char))
    (h0 : 0 ≤ lvl) (hp1 : ' ' ∉ p1) :
    pySplit2 (renderLine (lvl, p1, rest2)) = (renderNat lvl.toNat, some (p1, rest2)) := by
  rw [renderLine_eq lvl p1 rest2 h0]
  cases rest2 with
  | none =>
    simp only [Option.elim, List.append_nil]
    exact pySplit2_two _ _ (renderNat_no_space lvl.toNat) hp1
  | some q =>
    simp only [Option.elim]
    exact pySplit2_three _ _ _ (renderNat_no_space lvl.toNat) hp1

lemma computeLevel_renderNat (prev lvl : Int) (h0 : 0 ≤ lvl) (h1 : lvl ≤ prev + 1) :
    computeLevel prev (renderNat lvl.toNat) = lvl := by
  have hp : pyInt (renderNat lvl.toNat) = some lvl := by
    rw [pyInt_renderNat]
    congr 1
    omega
  have hr : rawLevel prev (renderNat lvl.toNat) = lvl := by
    unfold rawLevel
    rw [hp]
  unfold computeLevel
  rw [hr]
  split_ifs <;> omega

lemma repairStep_renderLine (prev lvl : Int) (p1 : List Char) (rest2 : Option (List Char))
    (h0 : 0 ≤ lvl) (h1 : lvl ≤ prev + 1) (hp1 : ' ' ∉ p1) :
    repairStep prev (renderLine (lvl, p1, rest2)) = some (lvl, p1, rest2) := by
  simp [repairStep, pySplit2_renderLine lvl p1 rest2 h0 hp1,
    computeLevel_renderNat prev lvl h0 h1]

/-- Rendered output of a good entry list re-parses to exactly the same
entries: the second pass of the repair algorithm changes nothing. -/
lemma repairCore_stable (es : List RepairEntry) :
    ∀ prev : Int, -1 ≤ prev → goodEntries prev es →
      repairCore prev (es.map renderLine) = some es := by
  induction es with
  | nil => intro prev _ _; rfl
  | cons e es ih =>
    intro prev hprev hgood
    obtain ⟨lvl, p1, rest2⟩ := e
    obtain ⟨h0, h1, hp1, hrest, hgood2⟩ := hgood
    have hstrip := renderLine_strip lvl p1 rest2 h0 hrest
    have hempty : (pyStrip (renderLine (lvl, p1, rest2))).isEmpty = false := by
      rw [hstrip]
      simp [List.isEmpty_iff, renderLine_ne_nil lvl p1 rest2 h0]
    rw [List.map_cons, repairCore, hempty]
    simp only [Bool.false_eq_true, if_false, hstrip,
      repairStep_renderLine prev lvl p1 rest2 h0 h1 hp1]
    rw [ih lvl (by omega) hgood2]
    rfl

end StabilityLemmas

section LengthTotalityLemmas

lemma repairCore_length (ls : List (List Char)) :
    ∀ (prev : Int) (es : List RepairEntry), repairCore prev ls = some es →
      es.length = ls.countP (fun l => !(pyStrip l).isEmpty) := by
  induction ls with
  | nil =>
    intro prev es h
    simp only [repairCore, Option.some_inj] at h
    rw [← h]
    simp
  | cons l ls ih =>
    intro prev es h
    rw [List.countP_cons]
    by_cases hb : (pyStrip l).isEmpty
    · rw [repairCore, if_pos hb] at h
      simp only [hb, Bool.not_true, List.countP_cons]
      rw [ih prev es h]
      simp
    · rw [repairCore, if_neg hb] at h
      cases hstep : repairStep prev (pyStrip l) with
      | none => rw [hstep] at h; simp at h
      | some e =>
        rw [hstep] at h
        simp only [Option.map_eq_some'] at h
        obtain ⟨es2, hes2, rfl⟩ := h
        simp only [List.length_cons, Bool.not_eq_true] at hb ⊢
        rw [ih _ _ hes2]
        simp [hb]

lemma pySplit2_isSome_of_space (s : List Char) (h : ' ' ∈ s) :
    ∃ p0 p1 rest2, pySplit2 s = (p0, some (p1, rest2)) := by
  obtain ⟨r1, hr1⟩ := mem_space_breakSpace_some s h
  obtain ⟨b1, hr⟩ : ∃ b1, breakSpace s = (b1, some r1) :=
    ⟨(breakSpace s).1, by rw [← hr1]⟩
  cases h2 : breakSpace r1 with
  | mk q1 o2 =>
    cases o2 with
    | none => exact ⟨b1, q1, none, by simp [pySplit2, hr, h2]⟩
    | some r2 => exact ⟨b1, q1, some r2, by simp [pySplit2, hr, h2]⟩

lemma repairStep_isSome (prev : Int) (s p0 p1 : List Char) (rest2 : Option (List Char))
    (h : pySplit2 s = (p0, some (p1, rest2))) :
    repairStep prev s = some (computeLevel prev p0, p1, rest2) := by
  simp [repairStep, h]

lemma repairCore_total (ls : List (List Char)) :
    ∀ prev : Int, (∀ l ∈ ls, (pyStrip l).isEmpty = false → ' ' ∈ pyStrip l) →
      ∃ es, repairCore prev ls = some es := by
  induction ls with
  | nil => exact fun prev _ => ⟨[], rfl⟩
  | cons l ls ih =>
    intro prev hcond
    by_cases hb : (pyStrip l).isEmpty
    · obtain ⟨es, hes⟩ := ih prev (fun x hx => hcond x (List.mem_cons_of_mem _ hx))
      exact ⟨es, by rw [repairCore, if_pos hb]; exact hes⟩
    · have hsp : ' ' ∈ pyStrip l :=
        hcond l (List.mem_cons_self _ _) (Bool.eq_false_iff.mpr hb)
      obtain ⟨p0, p1, rest2, hsplit⟩ := pySplit2_isSome_of_space _ hsp
      obtain ⟨es, hes⟩ := ih (computeLevel prev p0)
        (fun x hx => hcond x (List.mem_cons_of_mem _ hx))
      refine ⟨(computeLevel prev p0, p1, rest2) :: es, ?_⟩
      rw [repairCore, if_neg hb]
      simp [repairStep_isSome prev _ p0 p1 rest2 hsplit, hes]

end LengthTotalityLemmas

section LinkerLemmas

lemma dictSet_eq (m : String → Option (String × String)) (k : String) (v : String × String) :
    dictSet m k v k = some v := by
  simp [dictSet]

lemma foldl_dictSet_lookup (v : String × String) (cs : List String) :
    ∀ (m : String → Option (String × String)) (C : String),
      (cs.foldl (fun m c => dictSet m c v) m) C = if C ∈ cs then some v else m C := by
  induction cs with
  | nil => intro m C; simp
  | cons c cs ih =>
    intro m C
    rw [List.foldl_cons, ih]
    by_cases hC : C ∈ cs
    · simp [hC]
    · by_cases hc : C = c
      · simp [hC, hc, dictSet]
      · simp [hC, hc, dictSet]

lemma linkHusband_ctp (st : LinkState) (f : FamilyRecord) :
    (linkHusband st f).child_to_parents = st.child_to_parents := by
  unfold linkHusband
  split_ifs <;> rfl

lemma linkWife_ctp (st : LinkState) (f : FamilyRecord) :
    (linkWife st f).child_to_parents = st.child_to_parents := by
  unfold linkWife
  split_ifs <;> rfl

lemma linkFamily_ctp (st : LinkState) (f : FamilyRecord) (C : String) :
    (linkFamily st f).child_to_parents C =
      if C ∈ f.children_ids then some (f.husband_id, f.wife_id)
      else st.child_to_parents C := by
  unfold linkFamily
  rw [linkWife_ctp, linkHusband_ctp]
  exact foldl_dictSet_lookup (f.husband_id, f.wife_id) f.children_ids st.child_to_parents C

lemma foldl_link_ctp_skip (fs : List FamilyRecord) :
    ∀ (st : LinkState) (C : String), (∀ f ∈ fs, C ∉ f.children_ids) →
      (fs.foldl linkFamily st).child_to_parents C = st.child_to_parents C := by
  induction fs with
  | nil => intro st C _; rfl
  | cons f fs ih =>
    intro st C h
    rw [List.foldl_cons, ih _ _ (fun g hg => h g (List.mem_cons_of_mem _ hg)),
      linkFamily_ctp, if_neg (h f (List.mem_cons_self _ _))]

lemma setdefaultAppend_mem (m : String → Option (List String)) (k v k2 v2 : String)
    (h : ∃ l, m k = some l ∧ v ∈ l) :
    ∃ l, setdefaultAppend m k2 v2 k = some l ∧ v ∈ l := by
  obtain ⟨l, hl, hv⟩ := h
  unfold setdefaultAppend dictSet
  by_cases hk : k = k2
  · subst hk
    exact ⟨(m k).getD [] ++ [v2], by simp, by rw [hl]; simp [hv]⟩
  · exact ⟨l, by simp [hk, hl], hv⟩

lemma setdefaultAppend_self (m : String → Option (List String)) (k v : String) :
    ∃ l, setdefaultAppend m k v k = some l ∧ v ∈ l :=
  ⟨(m k).getD [] ++ [v], by simp [setdefaultAppend, dictSet], by simp⟩

lemma linkChildren_spouses (st : LinkState) (f : FamilyRecord) :
    (linkChildren st f).id_to_spouses = st.id_to_spouses := rfl

lemma linkChildren_children (st : LinkState) (f : FamilyRecord) :
    (linkChildren st f).id_to_children = st.id_to_children := rfl

lemma linkHusband_spouses_pos (st : LinkState) (f : FamilyRecord) (h : f.husband_id ≠ "") :
    (linkHusband st f).id_to_spouses =
      setdefaultAppend st.id_to_spouses f.husband_id f.wife_id := by
  unfold linkHusband
  rw [if_pos h]

lemma linkHusband_spouses_neg (st : LinkState) (f : FamilyRecord) (h : ¬f.husband_id ≠ "") :
    (linkHusband st f).id_to_spouses = st.id_to_spouses := by
  unfold linkHusband
  rw [if_neg h]

lemma linkHusband_children_pos (st : LinkState) (f : FamilyRecord) (h : f.husband_id ≠ "") :
    (linkHusband st f).id_to_children =
      setdefaultExtend st.id_to_children f.husband_id f.children_ids := by
  unfold linkHusband
  rw [if_pos h]

lemma linkHusband_children_neg (st : LinkState) (f : FamilyRecord) (h : ¬f.husband_id ≠ "") :
    (linkHusband st f).id_to_children = st.id_to_children := by
  unfold linkHusband
  rw [if_neg h]

lemma linkWife_spouses_pos (st : LinkState) (f : FamilyRecord) (h : f.wife_id ≠ "") :
    (linkWife st f).id_to_spouses =
      setdefaultAppend st.id_to_spouses f.wife_id f.husband_id := by
  unfold linkWife
  rw [if_pos h]

lemma linkWife_spouses_neg (st : LinkState) (f : FamilyRecord) (h : ¬f.wife_id ≠ "") :
    (linkWife st f).id_to_spouses = st.id_to_spouses := by
  unfold linkWife
  rw [if_neg h]

lemma linkWife_children_pos (st : LinkState) (f : FamilyRecord) (h : f.wife_id ≠ "") :
    (linkWife st f).id_to_children =
      setdefaultExtend st.id_to_children f.wife_id f.children_ids := by
  unfold linkWife
  rw [if_pos h]

lemma linkWife_children_neg (st : LinkState) (f : FamilyRecord) (h : ¬f.wife_id ≠ "") :
    (linkWife st f).id_to_children = st.id_to_children := by
  unfold linkWife
  rw [if_neg h]

lemma spouseMem_linkFamily (st : LinkState) (f : FamilyRecord) (k v : String)
    (h : ∃ l, st.id_to_spouses k = some l ∧ v ∈ l) :
    ∃ l, (linkFamily st f).id_to_spouses k = some l ∧ v ∈ l := by
  unfold linkFamily
  by_cases hw : f.wife_id ≠ ""
  · by_cases hh : f.husband_id ≠ ""
    · simp only [linkWife_spouses_pos _ _ hw, linkHusband_spouses_pos _ _ hh,
        linkChildren_spouses]
      exact setdefaultAppend_mem _ _ _ _ _ (setdefaultAppend_mem _ _ _ _ _ h)
    · simp only [linkWife_spouses_pos _ _ hw, linkHusband_spouses_neg _ _ hh,
        linkChildren_spouses]
      exact setdefaultAppend_mem _ _ _ _ _ h
  · by_cases hh : f.husband_id ≠ ""
    · simp only [linkWife_spouses_neg _ _ hw, linkHusband_spouses_pos _ _ hh,
        linkChildren_spouses]
      exact setdefaultAppend_mem _ _ _ _ _ h
    · simp only [linkWife_spouses_neg _ _ hw, linkHusband_spouses_neg _ _ hh,
        linkChildren_spouses]
      exact h

lemma spouseMem_linkFamily_self (st : LinkState) (f : FamilyRecord)
    (hh : f.husband_id ≠ "") (hw : f.wife_id ≠ "") :
    (∃ l, (linkFamily st f).id_to_spouses f.husband_id = some l ∧ f.wife_id ∈ l) ∧
    (∃ l, (linkFamily st f).id_to_spouses f.wife_id = some l ∧ f.husband_id ∈ l) := by
  unfold linkFamily
  constructor
  · simp only [linkWife_spouses_pos _ _ hw, linkHusband_spouses_pos _ _ hh,
      linkChildren_spouses]
    exact setdefaultAppend_mem _ _ _ _ _ (setdefaultAppend_self _ _ _)
  · simp only [linkWife_spouses_pos _ _ hw, linkHusband_spouses_pos _ _ hh,
      linkChildren_spouses]
    exact setdefaultAppend_self _ _ _

lemma foldl_spouseMem (fs : List FamilyRecord) :
    ∀ (st : LinkState) (k v : String),
      (∃ l, st.id_to_spouses k = some l ∧ v ∈ l) →
      ∃ l, ((fs.foldl linkFamily st).id_to_spouses k = some l) ∧ v ∈ l := by
  induction fs with
  | nil => exact fun st k v h => h
  | cons f fs ih =>
    intro st k v h
    exact ih _ k v (spouseMem_linkFamily st f k v h)

lemma dictSet_lookup_ne {α : Type} (m : String → Option α) (k x : String) (v : α)
    (h : x ≠ k) : dictSet m k v x = m x := by
  simp [dictSet, h]

lemma setdefaultAppend_empty (m : String → Option (List String)) (k v : String)
    (hk : k ≠ "") (h : m "" = none) : setdefaultAppend m k v "" = none := by
  unfold setdefaultAppend
  rw [dictSet_lookup_ne _ _ _ _ (Ne.symm hk)]
  exact h

lemma setdefaultExtend_empty (m : String → Option (List String)) (k : String)
    (vs : List String) (hk : k ≠ "") (h : m "" = none) :
    setdefaultExtend m k vs "" = none := by
  unfold setdefaultExtend
  rw [dictSet_lookup_ne _ _ _ _ (Ne.symm hk)]
  exact h

lemma linkFamily_empty_key (st : LinkState) (f : FamilyRecord)
    (hs : st.id_to_spouses "" = none) (hc : st.id_to_children "" = none) :
    (linkFamily st f).id_to_spouses "" = none ∧
      (linkFamily st f).id_to_children "" = none := by
  unfold linkFamily
  by_cases hw : f.wife_id ≠ ""
  · by_cases hh : f.husband_id ≠ ""
    · rw [linkWife_spouses_pos _ _ hw, linkWife_children_pos _ _ hw,
        linkHusband_spouses_pos _ _ hh, linkHusband_children_pos _ _ hh,
        linkChildren_spouses, linkChildren_children]
      exact ⟨setdefaultAppend_empty _ _ _ hw (setdefaultAppend_empty _ _ _ hh hs),
        setdefaultExtend_empty _ _ _ hw (setdefaultExtend_empty _ _ _ hh hc)⟩
    · rw [linkWife_spouses_pos _ _ hw, linkWife_children_pos _ _ hw,
        linkHusband_spouses_neg _ _ hh, linkHusband_children_neg _ _ hh,
        linkChildren_spouses, linkChildren_children]
      exact ⟨setdefaultAppend_empty _ _ _ hw hs, setdefaultExtend_empty _ _ _ hw hc⟩
  · by_cases hh : f.husband_id ≠ ""
    · rw [linkWife_spouses_neg _ _ hw, linkWife_children_neg _ _ hw,
        linkHusband_spouses_pos _ _ hh, linkHusband_children_pos _ _ hh,
        linkChildren_spouses, linkChildren_children]
      exact ⟨setdefaultAppend_empty _ _ _ hh hs, setdefaultExtend_empty _ _ _ hh hc⟩
    · rw [linkWife_spouses_neg _ _ hw, linkWife_children_neg _ _ hw,
        linkHusband_spouses_neg _ _ hh, linkHusband_children_neg _ _ hh,
        linkChildren_spouses, linkChildren_children]
      exact ⟨hs, hc⟩

end LinkerLemmas

section ChainLemmas

lemma goodEntries_chain (es : List RepairEntry) :
    ∀ prev : Int, goodEntries prev es →
      (∀ e ∈ es, 0 ≤ e.1) ∧ es.Chain' (fun a b => b.1 ≤ a.1 + 1) := by
  induction es with
  | nil =>
    intro prev _
    exact ⟨by simp, by simp⟩
  | cons e es ih =>
    intro prev hg
    obtain ⟨lvl, p1, rest2⟩ := e
    obtain ⟨h0, h1, hsp, hrest, hg2⟩ := hg
    obtain ⟨ihA, ihB⟩ := ih lvl hg2
    refine ⟨?_, ?_⟩
    · intro x hx
      rcases List.mem_cons.mp hx with rfl | hx
      · exact h0
      · exact ihA x hx
    · cases es with
      | nil => simp
      | cons e2 es2 =>
        rw [List.chain'_cons]
        refine ⟨?_, ihB⟩
        obtain ⟨l2, q1, r2⟩ := e2
        obtain ⟨_, hb, _⟩ := hg2
        exact hb

end ChainLemmas

section EnrichLemmas

lemma enrich_parents_some (idn : String → Option String) (st : LinkState)
    (i fa mo : String) (h : st.child_to_parents i = some (fa, mo)) :
    (enrichIndividual idn st i).father_id = sanitize_string fa ∧
    (enrichIndividual idn st i).mother_id = sanitize_string mo ∧
    (enrichIndividual idn st i).father_name = sanitize_string ((idn fa).getD "") ∧
    (enrichIndividual idn st i).mother_name = sanitize_string ((idn mo).getD "") := by
  unfold enrichIndividual
  rw [h]
  cases hsp : st.id_to_spouses i <;> cases hch : st.id_to_children i <;> simp

lemma enrich_parents_none (idn : String → Option String) (st : LinkState)
    (i : String) (h : st.child_to_parents i = none) :
    (enrichIndividual idn st i).father_id = "" ∧
    (enrichIndividual idn st i).mother_id = "" ∧
    (enrichIndividual idn st i).father_name = "" ∧
    (enrichIndividual idn st i).mother_name = "" := by
  unfold enrichIndividual
  rw [h]
  cases hsp : st.id_to_spouses i <;> cases hch : st.id_to_children i <;> simp

lemma enrich_spouses_some (idn : String → Option String) (st : LinkState)
    (i : String) (sids : List String) (h : st.id_to_spouses i = some sids) :
    (enrichIndividual idn st i).spouse_ids = sanitize_string (joinComma sids) ∧
    (enrichIndividual idn st i).spouse_names =
      sanitize_string (joinComma (sids.map fun sid => (idn sid).getD "")) := by
  unfold enrichIndividual
  rw [h]
  cases hcp : st.child_to_parents i <;> cases hch : st.id_to_children i <;> simp

lemma enrich_spouses_none (idn : String → Option String) (st : LinkState)
    (i : String) (h : st.id_to_spouses i = none) :
    (enrichIndividual idn st i).spouse_ids = "" ∧
    (enrichIndividual idn st i).spouse_names = "" := by
  unfold enrichIndividual
  rw [h]
  cases hcp : st.child_to_parents i <;> cases hch : st.id_to_children i <;> simp

lemma enrich_children_some (idn : String → Option String) (st : LinkState)
    (i : String) (cids : List String) (h : st.id_to_children i = some cids) :
    (enrichIndividual idn st i).children_ids = sanitize_string (joinComma cids) ∧
    (enrichIndividual idn st i).children_names =
      sanitize_string (joinComma (cids.map fun cid => (idn cid).getD "")) := by
  unfold enrichIndividual
  rw [h]
  cases hcp : st.child_to_parents i <;> cases hsp : st.id_to_spouses i <;> simp

lemma enrich_children_none (idn : String → Option String) (st : LinkState)
    (i : String) (h : st.id_to_children i = none) :
    (enrichIndividual idn st i).children_ids = "" ∧
    (enrichIndividual idn st i).children_names = "" := by
  unfold enrichIndividual
  rw [h]
  cases hcp : st.child_to_parents i <;> cases hsp : st.id_to_spouses i <;> simp

lemma map_getD_none (idn : String → Option String) (sids : List String)
    (h : ∀ s ∈ sids, idn s = none) :
    (sids.map fun sid => (idn sid).getD "") = List.replicate sids.length "" := by
  induction sids with
  | nil => rfl
  | cons s ss ih =>
    simp only [List.map_cons, List.length_cons, List.replicate_succ]
    rw [h s (List.mem_cons_self _ _)]
    simp only [Option.getD_none, List.cons.injEq, true_and]
    exact ih (fun x hx => h x (List.mem_cons_of_mem _ hx))

end EnrichLemmas

/-- C1 counterexample: the Depth Repair Pass is not total over any text
input.  On the single-token non-blank line `"0"`, `parts` has length 1, so
building the repaired line reads `parts[1]` and raises `IndexError`,
modelled by `none`. -/
theorem C1_single_token_line_fails :
    repair_gedcom_numbering [chars "0"] = none := by
  rfl

/-- C1 (amended): the Depth Repair Pass completes without raising and
emits one corrected line per non-blank input line provided every non-blank
line splits into at least two space-separated fields (its stripped form
contains a space); lines with unparsable, missing or negative depth tokens
are still recovered, but a non-blank line consisting of a single token
raises `IndexError`. -/
theorem C1_total_on_two_field_lines (ls : List (List Char))
    (h : ∀ l ∈ ls, (pyStrip l).isEmpty = false → ' ' ∈ pyStrip l) :
    ∃ out, repair_gedcom_numbering ls = some out ∧
      out.length = ls.countP (fun l => !(pyStrip l).isEmpty) := by
  obtain ⟨es, hes⟩ := repairCore_total ls (-1) h
  refine ⟨es.map renderLine, ?_, ?_⟩
  · unfold repair_gedcom_numbering
    rw [hes]
    rfl
  · rw [List.length_map]
    exact repairCore_length ls (-1) es hes

/-- Witness for C1 (amended) at a concrete input with a blank and two
well-formed lines. -/
theorem C1_total_on_two_field_lines_witness :
    ∃ out, repair_gedcom_numbering [chars "0 HEAD", chars "", chars "1 SOUR test"] = some out ∧
      out.length =
        [chars "0 HEAD", chars "", chars "1 SOUR test"].countP
          (fun l => !(pyStrip l).isEmpty) :=
  C1_total_on_two_field_lines [chars "0 HEAD", chars "", chars "1 SOUR test"] (by decide)

/-- C2: every successful run of the Depth Repair Pass emits depths that are
non-negative and satisfy `depth[i] <= depth[i-1] + 1` at every consecutive
position; in particular depth 0 followed by a claimed depth 5 is emitted as
depths 0, 1. -/
theorem C2_depth_clamp_invariant :
    (∀ (ls : List (List Char)) (es : List RepairEntry),
        repairCore (-1) ls = some es →
          (∀ e ∈ es, 0 ≤ e.1) ∧ es.Chain' (fun a b => b.1 ≤ a.1 + 1)) ∧
      (repairCore (-1) [chars "0 A", chars "5 B"]).map (fun es => es.map (fun e => e.1)) =
        some [0, 1] := by
  constructor
  · intro ls es h
    exact goodEntries_chain es (-1) (repairCore_good ls (-1) es (by omega) h)
  · rfl

/-- Witness for C2 at the over-jump input `0 A`, `5 B`. -/
theorem C2_depth_clamp_invariant_witness :
    (∀ e ∈ [((0 : Int), chars "A", (none : Option (List Char))), (1, chars "B", none)],
        0 ≤ e.1) ∧
      List.Chain' (fun a b => b.1 ≤ a.1 + 1)
        [((0 : Int), chars "A", (none : Option (List Char))), (1, chars "B", none)] :=
  C2_depth_clamp_invariant.1 [chars "0 A", chars "5 B"]
    [((0 : Int), chars "A", (none : Option (List Char))), (1, chars "B", none)] (by rfl)

/-- C3: when a child id is listed by an earlier family-union record and by a
later one (and by none after that), the linking pass leaves
`child_to_parents[C]` equal to the later record's (husband, wife) pair:
the later assignment silently overwrites the earlier one. -/
theorem C3_parents_last_write_wins (fs : List FamilyRecord) (i j : Nat) (C : String)
    (hi : i < fs.length) (hj : j < fs.length) (hij : i < j)
    (h1 : C ∈ (fs.get ⟨i, hi⟩).children_ids) (h2 : C ∈ (fs.get ⟨j, hj⟩).children_ids)
    (hlast : ∀ k (hk : k < fs.length), j < k → C ∉ (fs.get ⟨k, hk⟩).children_ids) :
    (linkFamilies fs).child_to_parents C =
      some ((fs.get ⟨j, hj⟩).husband_id, (fs.get ⟨j, hj⟩).wife_id) := by
  unfold linkFamilies
  have hsplit : fs = fs.take (j + 1) ++ fs.drop (j + 1) := (List.take_append_drop _ _).symm
  conv_lhs => rw [hsplit]
  rw [List.foldl_append]
  have hdrop : ∀ f ∈ fs.drop (j + 1), C ∉ f.children_ids := by
    intro f hf
    obtain ⟨k, hk, hfk⟩ := List.mem_iff_getElem.mp hf
    have hlen : j + 1 + k < fs.length := by
      have := hk
      rw [List.length_drop] at this
      omega
    have : (fs.drop (j + 1))[k] = fs.get ⟨j + 1 + k, hlen⟩ := by
      rw [List.getElem_drop]
      rfl
    rw [this] at hfk
    rw [← hfk]
    exact hlast (j + 1 + k) hlen (by omega)
  rw [foldl_link_ctp_skip _ _ _ hdrop]
  have htake : fs.take (j + 1) = fs.take j ++ [fs.get ⟨j, hj⟩] := by
    rw [List.take_succ, List.getElem?_eq_getElem hj]
    rfl
  rw [htake, List.foldl_append, List.foldl_cons, List.foldl_nil, linkFamily_ctp, if_pos h2]

/-- Witness for C3: the same child in two family records; the second pair
wins. -/
theorem C3_parents_last_write_wins_witness :
    (linkFamilies [(⟨"@H1@", "@W1@", ["@C@"]⟩ : FamilyRecord),
        ⟨"@H2@", "@W2@", ["@C@"]⟩]).child_to_parents "@C@" = some ("@H2@", "@W2@") :=
  C3_parents_last_write_wins
    [(⟨"@H1@", "@W1@", ["@C@"]⟩ : FamilyRecord), ⟨"@H2@", "@W2@", ["@C@"]⟩]
    0 1 "@C@" (by decide) (by decide) (by decide) (by decide) (by decide)
    (fun k hk hgt => by
      simp only [List.length_cons, List.length_nil] at hk
      exact absurd hgt (by omega))

/-- C4 counterexample: a family-union record with an absent husband id and a
present wife id appends the empty husband id to the wife's spouse list, so
an empty-id entry does appear in a spouse list. -/
theorem C4_absent_husband_appends_empty_id :
    (linkFamilies [(⟨"", "@W@", []⟩ : FamilyRecord)]).id_to_spouses "@W@" = some [""] := by
  rfl

/-- C4 (amended): the linking pass skips the updates keyed by an absent
(empty) husband or wife id, so no entry keyed by the empty id is ever
created in `spouses-of` or `children-of`; however the absent partner's
empty id is still appended to the present partner's spouse list. -/
theorem C4_no_entry_keyed_by_absent_id (fs : List FamilyRecord) :
    (linkFamilies fs).id_to_spouses "" = none ∧
      (linkFamilies fs).id_to_children "" = none := by
  unfold linkFamilies
  have haux : ∀ (gs : List FamilyRecord) (st : LinkState),
      st.id_to_spouses "" = none → st.id_to_children "" = none →
      (gs.foldl linkFamily st).id_to_spouses "" = none ∧
        (gs.foldl linkFamily st).id_to_children "" = none := by
    intro gs
    induction gs with
    | nil => exact fun st hs hc => ⟨hs, hc⟩
    | cons g gs ih =>
      intro st hs hc
      obtain ⟨hs2, hc2⟩ := linkFamily_empty_key st g hs hc
      exact ih _ hs2 hc2
  exact haux fs emptyLinkState rfl rfl

/-- C5: for every family-union record with both husband and wife present,
after the linking pass the wife appears in the husband's spouse list and
the husband appears in the wife's spouse list. -/
theorem C5_spouse_symmetry (fs : List FamilyRecord) (f : FamilyRecord)
    (hf : f ∈ fs) (hh : f.husband_id ≠ "") (hw : f.wife_id ≠ "") :
    (∃ l, (linkFamilies fs).id_to_spouses f.husband_id = some l ∧ f.wife_id ∈ l) ∧
    (∃ l, (linkFamilies fs).id_to_spouses f.wife_id = some l ∧ f.husband_id ∈ l) := by
  unfold linkFamilies
  have haux : ∀ (gs : List FamilyRecord) (st : LinkState), f ∈ gs →
      (∃ l, ((gs.foldl linkFamily st).id_to_spouses f.husband_id = some l) ∧ f.wife_id ∈ l) ∧
      (∃ l, ((gs.foldl linkFamily st).id_to_spouses f.wife_id = some l) ∧ f.husband_id ∈ l) := by
    intro gs
    induction gs with
    | nil =>
      intro st hmem
      simp at hmem
    | cons g gs ih =>
      intro st hmem
      rcases List.mem_cons.mp hmem with rfl | hmem
      · rw [List.foldl_cons]
        obtain ⟨hA, hB⟩ := spouseMem_linkFamily_self st f hh hw
        exact ⟨foldl_spouseMem gs _ _ _ hA, foldl_spouseMem gs _ _ _ hB⟩
      · rw [List.foldl_cons]
        exact ih _ hmem
  exact haux fs emptyLinkState hf

/-- Witness for C5 at a single family with both spouses present. -/
theorem C5_spouse_symmetry_witness :
    (∃ l, (linkFamilies [(⟨"@H@", "@W@", []⟩ : FamilyRecord)]).id_to_spouses "@H@" =
        some l ∧ "@W@" ∈ l) ∧
    (∃ l, (linkFamilies [(⟨"@H@", "@W@", []⟩ : FamilyRecord)]).id_to_spouses "@W@" =
        some l ∧ "@H@" ∈ l) :=
  C5_spouse_symmetry [(⟨"@H@", "@W@", []⟩ : FamilyRecord)] ⟨"@H@", "@W@", []⟩
    (List.mem_singleton.mpr rfl) (by decide) (by decide)

/-- C6: a non-blank line whose first token does not parse as an integer is
assigned depth `previous_level + 1` (or 0 when no previous line has been
seen, `previous_level = -1`); in particular `X NOTE stray` after corrected
depths 0, 1, 2 is emitted with depth 3. -/
theorem C6_unparsable_depth_fallback :
    (∀ (prev : Int) (p0 : List Char), -1 ≤ prev → pyInt p0 = none →
        computeLevel prev p0 = if prev ≥ 0 then prev + 1 else 0) ∧
      (repairCore (-1)
          [chars "0 HEAD", chars "1 SOUR x", chars "2 DATA y", chars "X NOTE stray"]).map
          (fun es => es.map (fun e => e.1)) = some [0, 1, 2, 3] := by
  constructor
  · intro prev p0 hprev hnone
    have hr : rawLevel prev p0 = fallbackLevel prev := by
      unfold rawLevel
      rw [hnone]
    unfold computeLevel
    rw [hr]
    unfold fallbackLevel
    split_ifs <;> omega
  · rfl

/-- Witness for C6: the unparsable token `X` after a line at depth 2 gets
depth 3. -/
theorem C6_unparsable_depth_fallback_witness :
    computeLevel 2 (chars "X") = if (2 : Int) ≥ 0 then 2 + 1 else 0 :=
  C6_unparsable_depth_fallback.1 2 (chars "X") (by omega) (by rfl)

/-- C7: the Depth Repair Pass is idempotent: whenever it completes on an
input and emits a corrected line stream, running it again on that stream
returns the stream unchanged (depths, tags and values verbatim). -/
theorem C7_repair_idempotent (ls out : List (List Char))
    (h : repair_gedcom_numbering ls = some out) :
    repair_gedcom_numbering out = some out := by
  unfold repair_gedcom_numbering at h ⊢
  simp only [Option.map_eq_some'] at h
  obtain ⟨es, hes, rfl⟩ := h
  rw [repairCore_stable es (-1) (by omega)
    (repairCore_good ls (-1) es (by omega) hes)]
  rfl

/-- Witness for C7: the output of repairing `5 INDI @I1@` (namely
`0 INDI @I1@`) is a fixed point. -/
theorem C7_repair_idempotent_witness :
    repair_gedcom_numbering [chars "0 INDI @I1@"] = some [chars "0 INDI @I1@"] :=
  C7_repair_idempotent [chars "5 INDI @I1@"] [chars "0 INDI @I1@"] (by rfl)

/-- C8: during enrichment, referenced ids with no entry in the name lookup
resolve to the empty display name (father, mother, spouse and child name
fields), and individuals absent from a mapping keep the corresponding
fields empty; the enrichment itself is a total function. -/
theorem C8_missing_refs_empty_names (idn : String → Option String)
    (st : LinkState) (i : String) :
    (∀ fa mo, st.child_to_parents i = some (fa, mo) → idn fa = none →
        (enrichIndividual idn st i).father_name = "") ∧
    (∀ fa mo, st.child_to_parents i = some (fa, mo) → idn mo = none →
        (enrichIndividual idn st i).mother_name = "") ∧
    (∀ sids, st.id_to_spouses i = some sids → (∀ s ∈ sids, idn s = none) →
        (enrichIndividual idn st i).spouse_names =
          sanitize_string (joinComma (List.replicate sids.length ""))) ∧
    (∀ cids, st.id_to_children i = some cids → (∀ s ∈ cids, idn s = none) →
        (enrichIndividual idn st i).children_names =
          sanitize_string (joinComma (List.replicate cids.length ""))) ∧
    (st.child_to_parents i = none →
        (enrichIndividual idn st i).father_id = "" ∧
        (enrichIndividual idn st i).mother_id = "" ∧
        (enrichIndividual idn st i).father_name = "" ∧
        (enrichIndividual idn st i).mother_name = "") ∧
    (st.id_to_spouses i = none →
        (enrichIndividual idn st i).spouse_ids = "" ∧
        (enrichIndividual idn st i).spouse_names = "") ∧
    (st.id_to_children i = none →
        (enrichIndividual idn st i).children_ids = "" ∧
        (enrichIndividual idn st i).children_names = "") := by
  refine ⟨?_, ?_, ?_, ?_, ?_, ?_, ?_⟩
  · intro fa mo h hfa
    have := (enrich_parents_some idn st i fa mo h).2.2.1
    rw [this, hfa]
    rfl
  · intro fa mo h hmo
    have := (enrich_parents_some idn st i fa mo h).2.2.2
    rw [this, hmo]
    rfl
  · intro sids h hall
    have := (enrich_spouses_some idn st i sids h).2
    rw [this, map_getD_none idn sids hall]
  · intro cids h hall
    have := (enrich_children_some idn st i cids h).2
    rw [this, map_getD_none idn cids hall]
  · exact fun h => enrich_parents_none idn st i h
  · exact fun h => enrich_spouses_none idn st i h
  · exact fun h => enrich_children_none idn st i h

/-- Witness for C8: a child whose parents exist as references but not as
parsed individuals gets an empty father name. -/
theorem C8_missing_refs_empty_names_witness :
    (enrichIndividual (fun _ => none)
        (linkFamilies [(⟨"@H@", "@W@", ["@C@"]⟩ : FamilyRecord)]) "@C@").father_name = "" :=
  (C8_missing_refs_empty_names (fun _ => none)
      (linkFamilies [(⟨"@H@", "@W@", ["@C@"]⟩ : FamilyRecord)]) "@C@").1
    "@H@" "@W@" (by rfl) rfl

/-- C9: on every input on which the Depth Repair Pass completes, the number
of corrected output lines equals the number of non-blank input lines. -/
theorem C9_length_invariant (ls out : List (List Char))
    (h : repair_gedcom_numbering ls = some out) :
    out.length = ls.countP (fun l => !(pyStrip l).isEmpty) := by
  unfold repair_gedcom_numbering at h
  simp only [Option.map_eq_some'] at h
  obtain ⟨es, hes, rfl⟩ := h
  rw [List.length_map]
  exact repairCore_length ls (-1) es hes

/-- Witness for C9: three input lines of which one is blank give two
corrected lines. -/
theorem C9_length_invariant_witness :
    ([chars "0 HEAD", chars "1 CHAR UTF-8"] : List (List Char)).length =
      [chars "0 HEAD", chars "   ", chars "1 CHAR UTF-8"].countP
        (fun l => !(pyStrip l).isEmpty) :=
  C9_length_invariant [chars "0 HEAD", chars "   ", chars "1 CHAR UTF-8"]
    [chars "0 HEAD", chars "1 CHAR UTF-8"] (by rfl)

/-- C10: the first corrected line always has depth exactly 0, even when the
raw first depth is a valid positive integer, because `previous_level`
starts at -1 and the clamp reduces any depth above 0 to 0. -/
theorem C10_first_depth_zero (ls : List (List Char)) (e : RepairEntry)
    (rest : List RepairEntry) (h : repairCore (-1) ls = some (e :: rest)) :
    e.1 = 0 := by
  induction ls with
  | nil => simp [repairCore] at h
  | cons l ls ih =>
    by_cases hb : (pyStrip l).isEmpty
    · rw [repairCore, if_pos hb] at h
      exact ih h
    · rw [repairCore, if_neg hb] at h
      cases hstep : repairStep (-1) (pyStrip l) with
      | none =>
        rw [hstep] at h
        simp at h
      | some e2 =>
        rw [hstep] at h
        simp only [Option.map_eq_some'] at h
        obtain ⟨es2, _, heq⟩ := h
        obtain ⟨p0, _, hlvl⟩ := repairStep_some (-1) _ e2 hstep
        have he : e = e2 := by
          injection heq with hh1 _
          exact hh1.symm
        have hzero : computeLevel (-1) p0 = 0 := by
          unfold computeLevel
          split_ifs <;> omega
        rw [he, hlvl, hzero]

/-- Witness for C10: a first line claiming depth 7 is emitted with depth 0. -/
theorem C10_first_depth_zero_witness :
    ((0 : Int), chars "HEAD", (none : Option (List Char))).1 = 0 :=
  C10_first_depth_zero [chars "7 HEAD"] ((0 : Int), chars "HEAD", none) [] (by rfl)

end Ged2Excel
